import Mathlib

/-!
# Verification of the agent workflow execution engine

This file gives a shallow embedding of the execution engine of the
repository (flow executor, dependency checker, durable store, status and
history logs) together with the configuration loader, and proves the
specified properties about it.

The executor, store and orchestrator modules themselves are not shipped in
the source tree (only their tests and callers are), so those operations are
modelled from the specification's description of their behaviour; the
configuration loader (`scripts/config_loader.py`) is embedded from its
source.
-/

set_option autoImplicit false

namespace AgentFramework

/-- An execution group, as produced by the planner: an ordered list of task
ids plus a flag telling whether the members run concurrently. -/
structure ExecutionGroup where
  agents : List String
  is_parallel : Bool
deriving DecidableEq, Repr

/-- Merge a parallel task into the group list being built: if the list in
front already starts with a parallel group, the task joins it; otherwise it
opens a fresh parallel group. -/
def pushParallel (a : String) : List ExecutionGroup → List ExecutionGroup
  | { agents := ags, is_parallel := true } :: gs2 => ⟨a :: ags, true⟩ :: gs2
  | gs => ⟨[a], true⟩ :: gs

/-- Modelled from the spec: `identify_parallel_groups` of the flow executor
(the executor module is not in the source tree).  Groups are derived from the
metadata `parallel` flags in registration order: consecutive `parallel=true`
tasks coalesce into one group; any `parallel=false` task is its own
singleton group.  `meta` maps a task id to its `parallel` flag. -/
def identify_parallel_groups (meta : String → Bool) : List String → List ExecutionGroup
  | [] => []
  | a :: rest =>
    if meta a then pushParallel a (identify_parallel_groups meta rest)
    else ⟨[a], false⟩ :: identify_parallel_groups meta rest

/-- The metadata of the spec's worked example: `par1 … par4` are parallel,
everything else sequential. -/
def exampleMeta : String → Bool := fun a =>
  a == "par1" || a == "par2" || a == "par3" || a == "par4"

theorem ipg_flatten (meta : String → Bool) (l : List String) :
    (identify_parallel_groups meta l).flatMap ExecutionGroup.agents = l := by
  induction l with
  | nil => rfl
  | cons a rest ih =>
    by_cases h : meta a = true
    · simp only [identify_parallel_groups, h, if_pos]
      cases hgs : identify_parallel_groups meta rest with
      | nil =>
        rw [hgs] at ih
        simp [pushParallel, ih]
      | cons g gs2 =>
        rw [hgs] at ih
        cases g with
        | mk ags flag =>
          cases flag
          · simp only [pushParallel]
            simpa using ih
          · simp only [pushParallel]
            simp only [List.flatMap_cons] at ih ⊢
            simp [← List.append_assoc, ih]
    · simp only [identify_parallel_groups, h, if_neg, Bool.false_eq_true,
        not_false_iff]
      simp [h, ih]

theorem ipg_flags (meta : String → Bool) (l : List String) :
    ∀ g ∈ identify_parallel_groups meta l, ∀ x ∈ g.agents, meta x = g.is_parallel := by
  induction l with
  | nil => intro g hg; simp [identify_parallel_groups] at hg
  | cons a rest ih =>
    intro g hg x hx
    by_cases h : meta a = true
    · rw [identify_parallel_groups, if_pos h] at hg
      cases hgs : identify_parallel_groups meta rest with
      | nil =>
        rw [hgs] at hg
        simp [pushParallel] at hg
        subst hg
        simp at hx
        subst hx; exact h
      | cons g0 gs2 =>
        rw [hgs] at hg
        cases g0 with
        | mk ags flag =>
          cases flag
          · simp only [pushParallel] at hg
            rcases List.mem_cons.mp hg with h1 | h1
            · subst h1
              simp at hx
              subst hx; exact h
            · exact ih g (hgs ▸ h1) x hx
          · simp only [pushParallel] at hg
            rcases List.mem_cons.mp hg with h1 | h1
            · subst h1
              simp only at hx
              rcases List.mem_cons.mp hx with h2 | h2
              · subst h2; exact h
              · have := ih ⟨ags, true⟩ (by rw [hgs]; exact List.mem_cons_self _ _) x h2
                simpa using this
            · exact ih g (by rw [hgs]; exact List.mem_cons_of_mem _ h1) x hx
    · rw [identify_parallel_groups, if_neg h] at hg
      rcases List.mem_cons.mp hg with h1 | h1
      · subst h1
        simp at hx
        subst hx
        simpa using h
      · exact ih g h1 x hx

theorem ipg_nonempty (meta : String → Bool) (l : List String) :
    ∀ g ∈ identify_parallel_groups meta l, g.agents ≠ [] := by
  induction l with
  | nil => intro g hg; simp [identify_parallel_groups] at hg
  | cons a rest ih =>
    intro g hg
    by_cases h : meta a = true
    · rw [identify_parallel_groups, if_pos h] at hg
      cases hgs : identify_parallel_groups meta rest with
      | nil =>
        rw [hgs] at hg
        simp [pushParallel] at hg
        subst hg; simp
      | cons g0 gs2 =>
        rw [hgs] at hg
        cases g0 with
        | mk ags flag =>
          cases flag
          · simp only [pushParallel] at hg
            rcases List.mem_cons.mp hg with h1 | h1
            · subst h1; simp
            · exact ih g (hgs ▸ h1)
          · simp only [pushParallel] at hg
            rcases List.mem_cons.mp hg with h1 | h1
            · subst h1; simp
            · exact ih g (by rw [hgs]; exact List.mem_cons_of_mem _ h1)
    · rw [identify_parallel_groups, if_neg h] at hg
      rcases List.mem_cons.mp hg with h1 | h1
      · subst h1; simp
      · exact ih g h1

theorem ipg_seq_singleton (meta : String → Bool) (l : List String) :
    ∀ g ∈ identify_parallel_groups meta l, g.is_parallel = false → ∃ a, g.agents = [a] := by
  induction l with
  | nil => intro g hg; simp [identify_parallel_groups] at hg
  | cons a rest ih =>
    intro g hg hflag
    by_cases h : meta a = true
    · rw [identify_parallel_groups, if_pos h] at hg
      cases hgs : identify_parallel_groups meta rest with
      | nil =>
        rw [hgs] at hg
        simp [pushParallel] at hg
        subst hg; simp at hflag
      | cons g0 gs2 =>
        rw [hgs] at hg
        cases g0 with
        | mk ags flag =>
          cases flag
          · simp only [pushParallel] at hg
            rcases List.mem_cons.mp hg with h1 | h1
            · subst h1; simp at hflag
            · exact ih g (hgs ▸ h1) hflag
          · simp only [pushParallel] at hg
            rcases List.mem_cons.mp hg with h1 | h1
            · subst h1; simp at hflag
            · exact ih g (by rw [hgs]; exact List.mem_cons_of_mem _ h1) hflag
    · rw [identify_parallel_groups, if_neg h] at hg
      rcases List.mem_cons.mp hg with h1 | h1
      · subst h1; exact ⟨a, rfl⟩
      · exact ih g h1 hflag

theorem ipg_chain (meta : String → Bool) (l : List String) :
    (identify_parallel_groups meta l).Chain'
      (fun g1 g2 => ¬(g1.is_parallel = true ∧ g2.is_parallel = true)) := by
  induction l with
  | nil => simp [identify_parallel_groups]
  | cons a rest ih =>
    by_cases h : meta a = true
    · rw [identify_parallel_groups, if_pos h]
      cases hgs : identify_parallel_groups meta rest with
      | nil => simp [pushParallel]
      | cons g0 gs2 =>
        rw [hgs] at ih
        cases g0 with
        | mk ags flag =>
          cases flag
          · simp only [pushParallel]
            refine List.Chain'.cons ?_ ih
            simp
          · simp only [pushParallel]
            rcases ih with _ | ⟨hrel, hch⟩
            · exact List.chain'_singleton _
            · exact List.Chain'.cons (by simpa using hrel) hch
    · rw [identify_parallel_groups, if_neg h]
      cases hgs : identify_parallel_groups meta rest with
      | nil => simp [pushParallel]
      | cons g0 gs2 =>
        rw [hgs] at ih
        refine List.Chain'.cons ?_ ih
        simp

/-- C1: `identify_parallel_groups` returns an ordered partition of its input
in which every maximal run of consecutive `parallel=true` tasks forms exactly
one `is_parallel=true` group and every `parallel=false` task is its own
`is_parallel=false` singleton group: the groups' members concatenate back to
the input in order, every group is nonempty, every member's flag agrees with
its group's flag (so sequential groups hold only sequential tasks and
parallel groups only parallel ones), sequential groups are singletons, no two
adjacent groups are both parallel (maximality of the runs), and the worked
example `[seq1(false), par1(true), par2(true), seq2(false), par3(true),
par4(true)]` yields exactly the four groups `[seq1]`, `[par1,par2]`,
`[seq2]`, `[par3,par4]` in that order. -/
theorem identify_parallel_groups_partition (meta : String → Bool) (l : List String) :
    ((identify_parallel_groups meta l).flatMap ExecutionGroup.agents = l)
    ∧ (∀ g ∈ identify_parallel_groups meta l, g.agents ≠ [])
    ∧ (∀ g ∈ identify_parallel_groups meta l, ∀ x ∈ g.agents, meta x = g.is_parallel)
    ∧ (∀ g ∈ identify_parallel_groups meta l, g.is_parallel = false → ∃ a, g.agents = [a])
    ∧ (identify_parallel_groups meta l).Chain'
        (fun g1 g2 => ¬(g1.is_parallel = true ∧ g2.is_parallel = true))
    ∧ identify_parallel_groups exampleMeta ["seq1", "par1", "par2", "seq2", "par3", "par4"]
        = [⟨["seq1"], false⟩, ⟨["par1", "par2"], true⟩,
           ⟨["seq2"], false⟩, ⟨["par3", "par4"], true⟩] :=
  ⟨ipg_flatten meta l, ipg_nonempty meta l, ipg_flags meta l,
   ipg_seq_singleton meta l, ipg_chain meta l, by decide⟩

/-- Witness for C1 at the worked example: the second group of the example
plan is the parallel pair `[par1, par2]`, and its member `par1` indeed
carries a `parallel=true` flag. -/
theorem identify_parallel_groups_partition_witness :
    exampleMeta "par1" = (ExecutionGroup.mk ["par1", "par2"] true).is_parallel :=
  (identify_parallel_groups_partition exampleMeta
      ["seq1", "par1", "par2", "seq2", "par3", "par4"]).2.2.1
    ⟨["par1", "par2"], true⟩ (by decide) "par1" (by decide)

/-! ## Flow executor run traces (C2) -/

/-- An observable scheduling event of a run: a task starting or finishing. -/
inductive Event where
  | start (agent : String)
  | finish (agent : String)
deriving DecidableEq, Repr

/-- The task id an event belongs to. -/
def Event.agent : Event → String
  | .start a => a
  | .finish a => a

/-- Modelled from the spec: the event traces one execution group can
produce (the executor module is not in the source tree).  A sequential
group runs its tasks one after the other; a parallel group launches all
members concurrently, so its trace is any interleaving in which every
member starts exactly once, finishes exactly once, starts before it
finishes, and no foreign task appears. -/
def isGroupTrace (g : ExecutionGroup) (tr : List Event) : Bool :=
  if g.is_parallel then
    decide (tr.length = 2 * g.agents.length)
    && g.agents.all (fun a =>
        decide (tr.count (Event.start a) = 1)
        && decide (tr.count (Event.finish a) = 1)
        && decide (tr.indexOf (Event.start a) < tr.indexOf (Event.finish a)))
    && tr.all (fun e => g.agents.contains e.agent)
  else
    decide (tr = g.agents.flatMap (fun a => [Event.start a, Event.finish a]))

/-- Modelled from the spec: a run of the flow executor over a plan emits
the trace of each group in plan order, one group's trace strictly after the
previous one's (the group boundary is a synchronization barrier). -/
inductive RunTrace : List ExecutionGroup → List Event → Prop
  | nil : RunTrace [] []
  | cons {g : ExecutionGroup} {plan : List ExecutionGroup} {seg tr : List Event} :
      isGroupTrace g seg = true → RunTrace plan tr → RunTrace (g :: plan) (seg ++ tr)

theorem isGroupTrace_agent_mem {g : ExecutionGroup} {seg : List Event}
    (h : isGroupTrace g seg = true) : ∀ e ∈ seg, e.agent ∈ g.agents := by
  intro e he
  rw [isGroupTrace] at h
  by_cases hp : g.is_parallel = true
  · rw [if_pos hp] at h
    simp only [Bool.and_eq_true] at h
    have := (List.all_eq_true.mp h.2) e he
    simpa using this
  · rw [if_neg hp] at h
    have hseg : seg = g.agents.flatMap (fun a => [Event.start a, Event.finish a]) :=
      of_decide_eq_true h
    rw [hseg] at he
    rcases List.mem_flatMap.mp he with ⟨a, ha, hea⟩
    rcases List.mem_cons.mp hea with h1 | h1
    · subst h1; exact ha
    · simp only [List.mem_singleton] at h1
      subst h1; exact ha

theorem isGroupTrace_start_mem {g : ExecutionGroup} {seg : List Event}
    (h : isGroupTrace g seg = true) : ∀ a ∈ g.agents,
      Event.start a ∈ seg ∧ Event.finish a ∈ seg := by
  intro a ha
  rw [isGroupTrace] at h
  by_cases hp : g.is_parallel = true
  · rw [if_pos hp] at h
    simp only [Bool.and_eq_true] at h
    have := (List.all_eq_true.mp h.1.2) a ha
    simp only [Bool.and_eq_true, decide_eq_true_eq] at this
    constructor
    · exact List.count_pos_iff.mp (by omega)
    · exact List.count_pos_iff.mp (by omega)
  · rw [if_neg hp] at h
    have hseg : seg = g.agents.flatMap (fun a => [Event.start a, Event.finish a]) :=
      of_decide_eq_true h
    subst hseg
    constructor
    · exact List.mem_flatMap.mpr ⟨a, ha, by simp⟩
    · exact List.mem_flatMap.mpr ⟨a, ha, by simp⟩

theorem plan_get_agents_mem (plan : List ExecutionGroup) (k : Nat)
    (hk : k < plan.length) {x : String} (hx : x ∈ (plan.get ⟨k, hk⟩).agents) :
    x ∈ plan.flatMap ExecutionGroup.agents :=
  List.mem_flatMap.mpr ⟨plan.get ⟨k, hk⟩, List.get_mem plan k hk, hx⟩

/-- C2: strict barrier between consecutive groups.  In every trace a run of
the flow executor can produce for a plan whose groups have pairwise distinct
tasks, every task of an earlier group finishes strictly before any task of
any later group starts: the index of the earlier task's finish event is
strictly below the index of the later task's start event.  In particular,
for the plan `["seq1", ["par1","par2"], "seq2"]`, `seq1` finishes before
`par1`/`par2` start and both of those finish before `seq2` starts (witness
theorem). -/
theorem run_trace_barrier (plan : List ExecutionGroup) (tr : List Event)
    (hrt : RunTrace plan tr) :
    (plan.flatMap ExecutionGroup.agents).Nodup →
    ∀ i j (hi : i < plan.length) (hj : j < plan.length), i < j →
      ∀ a b, a ∈ (plan.get ⟨i, hi⟩).agents → b ∈ (plan.get ⟨j, hj⟩).agents →
        tr.indexOf (Event.finish a) < tr.indexOf (Event.start b) := by
  induction hrt with
  | nil =>
    intro _ i j hi hj
    exact absurd hi (by simp)
  | @cons g plan' seg tr' hseg hrest ih =>
    intro hnd i j hi hj hij a b ha hb
    simp only [List.flatMap_cons] at hnd
    have hnd' := List.nodup_append.mp hnd
    match j, hj with
    | j' + 1, hj =>
      have hj' : j' < plan'.length := Nat.lt_of_succ_lt_succ hj
      have hb' : b ∈ (plan'.get ⟨j', hj'⟩).agents := by
        simpa using hb
      have hbflat : b ∈ plan'.flatMap ExecutionGroup.agents :=
        plan_get_agents_mem plan' j' hj' hb'
      have hbnotg : b ∉ g.agents := fun hmem => hnd'.2.2 hmem hbflat
      have hbnotseg : Event.start b ∉ seg := fun hmem =>
        hbnotg (isGroupTrace_agent_mem hseg _ hmem)
      match i, hi with
      | 0, hi =>
        have ha' : a ∈ g.agents := by simpa using ha
        have hfin : Event.finish a ∈ seg := (isGroupTrace_start_mem hseg a ha').2
        rw [List.indexOf_append_of_mem hfin, List.indexOf_append_of_not_mem hbnotseg]
        exact Nat.lt_of_lt_of_le (List.indexOf_lt_length.mpr hfin) (Nat.le_add_right _ _)
      | i' + 1, hi =>
        have hi' : i' < plan'.length := Nat.lt_of_succ_lt_succ hi
        have ha' : a ∈ (plan'.get ⟨i', hi'⟩).agents := by simpa using ha
        have haflat : a ∈ plan'.flatMap ExecutionGroup.agents :=
          plan_get_agents_mem plan' i' hi' ha'
        have hanotg : a ∉ g.agents := fun hmem => hnd'.2.2 hmem haflat
        have hanotseg : Event.finish a ∉ seg := fun hmem =>
          hanotg (isGroupTrace_agent_mem hseg _ hmem)
        rw [List.indexOf_append_of_not_mem hanotseg,
            List.indexOf_append_of_not_mem hbnotseg]
        have := ih hnd'.2.1 i' j' hi' hj' (Nat.lt_of_succ_lt_succ hij) a b ha' hb'
        omega

/-- The example plan `["seq1", ["par1","par2"], "seq2"]`. -/
def examplePlan : List ExecutionGroup :=
  [⟨["seq1"], false⟩, ⟨["par1", "par2"], true⟩, ⟨["seq2"], false⟩]

/-- One concrete trace of the example plan, with the two parallel tasks
interleaved. -/
def exampleTrace : List Event :=
  [.start "seq1", .finish "seq1", .start "par1", .start "par2",
   .finish "par1", .finish "par2", .start "seq2", .finish "seq2"]

/-- Witness for C2: in a concrete run trace of the plan
`["seq1", ["par1","par2"], "seq2"]`, `seq1` finishes before `par1` starts and
`par2` finishes before `seq2` starts. -/
theorem run_trace_barrier_witness :
    exampleTrace.indexOf (Event.finish "seq1") < exampleTrace.indexOf (Event.start "par1")
    ∧ exampleTrace.indexOf (Event.finish "par2") < exampleTrace.indexOf (Event.start "seq2") := by
  have hrt : RunTrace examplePlan exampleTrace :=
    @RunTrace.cons ⟨["seq1"], false⟩ _
        [Event.start "seq1", Event.finish "seq1"] _ (by decide)
      (@RunTrace.cons ⟨["par1", "par2"], true⟩ _
          [Event.start "par1", Event.start "par2",
           Event.finish "par1", Event.finish "par2"] _ (by decide)
        (@RunTrace.cons ⟨["seq2"], false⟩ _
            [Event.start "seq2", Event.finish "seq2"] _ (by decide) RunTrace.nil))
  exact ⟨run_trace_barrier examplePlan exampleTrace hrt (by decide) 0 1
           (by decide) (by decide) (by decide) "seq1" "par1" (by decide) (by decide),
         run_trace_barrier examplePlan exampleTrace hrt (by decide) 1 2
           (by decide) (by decide) (by decide) "par2" "seq2" (by decide) (by decide)⟩

/-! ## Parallel group error isolation (C3) -/

/-- Modelled from the spec: the result the executor records for one member
of a parallel group.  A normal completion stores the task's own result; a
raised exception is caught and converted into an `"Error: <message>"`
string. -/
def taskResult (outcome : Except String String) : String :=
  match outcome with
  | .ok r => r
  | .error msg => "Error: " ++ msg

/-- Modelled from the spec: `execute_parallel_group` of the flow executor
(the executor module is not in the source tree).  Every member task runs
with its own isolated context; `behavior a` is the outcome of task `a`'s own
execution (result or raised exception message), and the group reports one
recorded result per member, in member order. -/
def execute_parallel_group (agents : List String)
    (behavior : String → Except String String) : List (String × String) :=
  agents.map (fun a => (a, taskResult (behavior a)))

/-- C3: error isolation inside a parallel group.  The group always returns
exactly one result per member (same length, same ids in order); a member
that raises with message `msg` has exactly the string `"Error: " ++ msg`
(which contains `"Error:"` and the original message) recorded as its own
result; a member that succeeds with `r` has `r` recorded; and a member's
recorded result depends only on that member's own behavior — changing the
siblings' behavior leaves it untouched. -/
theorem execute_parallel_group_isolates (agents : List String)
    (behavior : String → Except String String) :
    ((execute_parallel_group agents behavior).length = agents.length)
    ∧ ((execute_parallel_group agents behavior).map Prod.fst = agents)
    ∧ (∀ a msg, a ∈ agents → behavior a = .error msg →
        (a, "Error: " ++ msg) ∈ execute_parallel_group agents behavior)
    ∧ (∀ a r, a ∈ agents → behavior a = .ok r →
        (a, r) ∈ execute_parallel_group agents behavior)
    ∧ (∀ a, a ∈ agents → ∀ behavior2 : String → Except String String,
        behavior2 a = behavior a →
        (a, taskResult (behavior a)) ∈ execute_parallel_group agents behavior2) := by
  refine ⟨by simp [execute_parallel_group],
    by simp [execute_parallel_group, Function.comp_def], ?_, ?_, ?_⟩
  · intro a msg ha hmsg
    have : taskResult (behavior a) = "Error: " ++ msg := by rw [hmsg]; rfl
    rw [← this]
    exact List.mem_map.mpr ⟨a, ha, rfl⟩
  · intro a r ha hr
    have : taskResult (behavior a) = r := by rw [hr]; rfl
    rw [← this]
    exact List.mem_map.mpr ⟨a, ha, rfl⟩
  · intro a ha behavior2 hb2
    rw [← hb2]
    exact List.mem_map.mpr ⟨a, ha, rfl⟩

/-- The behaviour of the 3-member error-handling scenario: the middle task
raises `"Simulated failure"`, the two siblings succeed. -/
def exampleBehavior : String → Except String String := fun a =>
  if a == "failing_agent" then .error "Simulated failure" else .ok "Mock result"

/-- Witness for C3 at the 3-member group with one failing member: the group
yields exactly 3 results, the failing task's result is the
`"Error: Simulated failure"` string, and the two siblings both succeed with
their own result. -/
theorem execute_parallel_group_isolates_witness :
    (execute_parallel_group ["good_agent1", "failing_agent", "good_agent2"]
        exampleBehavior).length = 3
    ∧ ("failing_agent", "Error: " ++ "Simulated failure")
        ∈ execute_parallel_group ["good_agent1", "failing_agent", "good_agent2"]
            exampleBehavior
    ∧ ("good_agent1", "Mock result")
        ∈ execute_parallel_group ["good_agent1", "failing_agent", "good_agent2"]
            exampleBehavior
    ∧ ("good_agent2", "Mock result")
        ∈ execute_parallel_group ["good_agent1", "failing_agent", "good_agent2"]
            exampleBehavior := by
  have h := execute_parallel_group_isolates
    ["good_agent1", "failing_agent", "good_agent2"] exampleBehavior
  exact ⟨h.1, h.2.2.1 "failing_agent" "Simulated failure" (by decide) rfl,
         h.2.2.2.1 "good_agent1" "Mock result" (by decide) rfl,
         h.2.2.2.1 "good_agent2" "Mock result" (by decide) rfl⟩

/-! ## Circular dependency detection (C4) -/

/-- Look up the declared `wait_for.agents` list of a task in the registered
metadata; a task that is not registered has no outgoing dependencies. -/
def lookupDeps : List (String × List String) → String → List String
  | [], _ => []
  | (k, v) :: rest, n => if k = n then v else lookupDeps rest n

/-- The dependency-graph edge relation built over the entire registered
set: task `a` waits for task `b`. -/
def Edge (meta : List (String × List String)) (a b : String) : Prop :=
  b ∈ lookupDeps meta a

instance (meta : List (String × List String)) (a b : String) :
    Decidable (Edge meta a b) :=
  inferInstanceAs (Decidable (b ∈ lookupDeps meta a))

/-- The registered task ids. -/
def keys (meta : List (String × List String)) : List String := meta.map Prod.fst

/-- Every id that can occur on a dependency path: registered ids together
with all declared dependency targets. -/
def universeIds (meta : List (String × List String)) : List String :=
  meta.flatMap (fun p => p.1 :: p.2)

/-- All direct successors of a set of nodes. -/
def succsOf (meta : List (String × List String)) (R : List String) : List String :=
  R.flatMap (lookupDeps meta)

/-- Saturate a node set under direct successors, bounded by `fuel`. -/
def reachIter (meta : List (String × List String)) : Nat → List String → List String
  | 0, R => R
  | fuel + 1, R =>
    let news := (succsOf meta R).filter (fun b => !R.contains b)
    if news = [] then R
    else reachIter meta fuel (R ++ news)

/-- Whether task `n` lies on a dependency cycle: `n` is reachable from its
own direct dependencies. -/
def hasCycleAt (meta : List (String × List String)) (n : String) : Bool :=
  (reachIter meta (universeIds meta).length (lookupDeps meta n)).contains n

/-- Modelled from the spec: `detect_circular_dependencies` of the
dependency checker (the executor module is not in the source tree).  It
builds the directed graph task→`wait_for.agents` over the entire registered
set, performs cycle detection (including self-loops), and raises a
`CircularDependencyError` naming a node on the cycle; raising is modelled
as returning `Except.error` with the error message. -/
def detect_circular_dependencies (meta : List (String × List String)) :
    Except String Unit :=
  match (keys meta).find? (fun n => hasCycleAt meta n) with
  | some n => .error ("Circular dependency detected: " ++ n)
  | none => .ok ()

theorem lookupDeps_subset_universe (meta : List (String × List String))
    (a b : String) (hb : b ∈ lookupDeps meta a) : b ∈ universeIds meta := by
  induction meta with
  | nil => simp [lookupDeps] at hb
  | cons p rest ih =>
    obtain ⟨k, v⟩ := p
    rw [lookupDeps] at hb
    by_cases hk : k = a
    · rw [if_pos hk] at hb
      exact List.mem_flatMap.mpr ⟨(k, v), List.mem_cons_self _ _,
        List.mem_cons_of_mem _ hb⟩
    · rw [if_neg hk] at hb
      have := ih hb
      rw [universeIds, List.flatMap_cons]
      exact List.mem_append_right _ this

theorem lookupDeps_ne_nil_mem_keys (meta : List (String × List String))
    (a : String) (h : lookupDeps meta a ≠ []) : a ∈ keys meta := by
  induction meta with
  | nil => simp [lookupDeps] at h
  | cons p rest ih =>
    obtain ⟨k, v⟩ := p
    rw [lookupDeps] at h
    by_cases hk : k = a
    · rw [keys, List.map_cons]
      exact hk ▸ List.mem_cons_self _ _
    · rw [if_neg hk] at h
      exact List.mem_cons_of_mem _ (ih h)

theorem reachIter_subset (meta : List (String × List String)) (fuel : Nat)
    (R : List String) : ∀ x ∈ R, x ∈ reachIter meta fuel R := by
  induction fuel generalizing R with
  | zero => intro x hx; exact hx
  | succ fuel ih =>
    intro x hx
    rw [reachIter]
    by_cases hnews : (succsOf meta R).filter (fun b => !R.contains b) = []
    · simp only [hnews, if_pos]
      exact hx
    · simp only [hnews, if_neg, not_false_iff]
      exact ih _ x (List.mem_append_left _ hx)

theorem reachIter_sound (meta : List (String × List String))
    (P : String → Prop)
    (hclosed : ∀ a b, P a → Edge meta a b → P b) (fuel : Nat) :
    ∀ R : List String, (∀ x ∈ R, P x) → ∀ x ∈ reachIter meta fuel R, P x := by
  induction fuel with
  | zero => intro R hR x hx; exact hR x hx
  | succ fuel ih =>
    intro R hR x hx
    rw [reachIter] at hx
    by_cases hnews : (succsOf meta R).filter (fun b => !R.contains b) = []
    · simp only [hnews, if_pos] at hx
      exact hR x hx
    · simp only [hnews, if_neg, not_false_iff] at hx
      refine ih _ ?_ x hx
      intro y hy
      rcases List.mem_append.mp hy with hy1 | hy1
      · exact hR y hy1
      · have hy2 := List.mem_filter.mp hy1
        rcases List.mem_flatMap.mp hy2.1 with ⟨a, haR, hya⟩
        exact hclosed a y (hR a haR) hya

/-- The number of candidate ids not yet collected. -/
def missingCount (meta : List (String × List String)) (R : List String) : Nat :=
  ((universeIds meta).toFinset \ R.toFinset).card

theorem reachIter_closed (meta : List (String × List String)) (fuel : Nat) :
    ∀ R : List String, missingCount meta R ≤ fuel →
      ∀ b ∈ succsOf meta (reachIter meta fuel R), b ∈ reachIter meta fuel R := by
  induction fuel with
  | zero =>
    intro R hR b hb
    rw [reachIter] at hb ⊢
    rcases List.mem_flatMap.mp hb with ⟨a, haR, hba⟩
    have hbu : b ∈ universeIds meta := lookupDeps_subset_universe meta a b hba
    by_contra hbR
    have : b ∈ (universeIds meta).toFinset \ R.toFinset := by
      rw [Finset.mem_sdiff, List.mem_toFinset, List.mem_toFinset]
      exact ⟨hbu, hbR⟩
    have := Finset.card_pos.mpr ⟨b, this⟩
    rw [missingCount] at hR
    omega
  | succ fuel ih =>
    intro R hR b hb
    rw [reachIter] at hb ⊢
    by_cases hnews : (succsOf meta R).filter (fun b => !R.contains b) = []
    · simp only [hnews, if_pos] at hb ⊢
      rcases List.mem_flatMap.mp hb with ⟨a, haR, hba⟩
      by_contra hbR
      have : b ∈ (succsOf meta R).filter (fun b => !R.contains b) := by
        rw [List.mem_filter]
        refine ⟨List.mem_flatMap.mpr ⟨a, haR, hba⟩, ?_⟩
        simpa using hbR
      rw [hnews] at this
      simp at this
    · simp only [hnews, if_neg, not_false_iff] at hb ⊢
      refine ih _ ?_ b hb
      -- the measure strictly decreases: some genuinely new id was added
      rcases List.exists_mem_of_ne_nil _ hnews with ⟨b0, hb0⟩
      have hb0f := List.mem_filter.mp hb0
      rcases List.mem_flatMap.mp hb0f.1 with ⟨a0, ha0, hb0a⟩
      have hb0u : b0 ∈ universeIds meta := lookupDeps_subset_universe meta a0 b0 hb0a
      have hb0R : b0 ∉ R := by
        simpa using hb0f.2
      have hsub : (universeIds meta).toFinset \
          (R ++ (succsOf meta R).filter (fun b => !R.contains b)).toFinset ⊂
          (universeIds meta).toFinset \ R.toFinset := by
        rw [Finset.ssubset_iff_of_subset]
        · refine ⟨b0, ?_, ?_⟩
          · rw [Finset.mem_sdiff, List.mem_toFinset, List.mem_toFinset]
            exact ⟨hb0u, hb0R⟩
          · rw [Finset.mem_sdiff, List.mem_toFinset, List.mem_toFinset]
            intro hcon
            exact hcon.2 (List.mem_append_right _ hb0)
        · refine Finset.sdiff_subset_sdiff (Finset.Subset.refl _) ?_
          intro x hx
          rw [List.mem_toFinset] at hx ⊢
          exact List.mem_append_left _ hx
      have := Finset.card_lt_card hsub
      rw [missingCount] at hR ⊢
      omega

theorem missingCount_le_length (meta : List (String × List String))
    (R : List String) : missingCount meta R ≤ (universeIds meta).length := by
  rw [missingCount]
  calc ((universeIds meta).toFinset \ R.toFinset).card
      ≤ (universeIds meta).toFinset.card :=
        Finset.card_le_card Finset.sdiff_subset
    _ ≤ (universeIds meta).length := List.toFinset_card_le _

theorem hasCycleAt_iff (meta : List (String × List String)) (n : String) :
    hasCycleAt meta n = true ↔ Relation.TransGen (Edge meta) n n := by
  constructor
  · intro h
    rw [hasCycleAt] at h
    have hmem : n ∈ reachIter meta (universeIds meta).length (lookupDeps meta n) := by
      simpa using h
    exact reachIter_sound meta (fun x => Relation.TransGen (Edge meta) n x)
      (fun a b ha hab => Relation.TransGen.tail ha hab) _
      (lookupDeps meta n)
      (fun x hx => Relation.TransGen.single hx) n hmem
  · intro h
    rw [hasCycleAt]
    have hclosed := reachIter_closed meta (universeIds meta).length
      (lookupDeps meta n) (missingCount_le_length meta _)
    have hsub := reachIter_subset meta (universeIds meta).length (lookupDeps meta n)
    have : ∀ x, Relation.TransGen (Edge meta) n x →
        x ∈ reachIter meta (universeIds meta).length (lookupDeps meta n) := by
      intro x hx
      induction hx with
      | single hnb => exact hsub _ hnb
      | tail _ hbc ihx =>
        rename_i b c _
        exact hclosed c (List.mem_flatMap.mpr ⟨b, ihx, hbc⟩)
    simpa using this n h

/-- C4: cycle detection.  For every registered metadata set,
`detect_circular_dependencies` succeeds exactly when the directed graph
task→`wait_for.agents` over the entire registered set has no cycle
(including no self-loop), and whenever it raises, the error message names a
node that lies on a cycle (a node `n` with a nonempty dependency path from
`n` back to itself). -/
theorem detect_circular_dependencies_spec (meta : List (String × List String)) :
    (detect_circular_dependencies meta = .ok () ↔
      ¬∃ n, Relation.TransGen (Edge meta) n n)
    ∧ (∀ msg, detect_circular_dependencies meta = .error msg →
        ∃ n, Relation.TransGen (Edge meta) n n ∧
          msg = "Circular dependency detected: " ++ n) := by
  rw [detect_circular_dependencies]
  cases hfind : (keys meta).find? (fun n => hasCycleAt meta n) with
  | some n =>
    have hn : hasCycleAt meta n = true := by
      have := List.find?_some hfind
      simpa using this
    have hcyc := (hasCycleAt_iff meta n).mp hn
    constructor
    · simp only
      constructor
      · intro h; exact absurd h (by simp)
      · intro h; exact absurd ⟨n, hcyc⟩ h
    · intro msg hmsg
      simp only [Except.error.injEq] at hmsg
      exact ⟨n, hcyc, hmsg.symm⟩
  | none =>
    constructor
    · simp only
      constructor
      · intro _
        rintro ⟨m, hm⟩
        have hout : ∃ b, Edge meta m b := by
          rcases Relation.TransGen.head'_iff.mp hm with ⟨b, hb, _⟩
          exact ⟨b, hb⟩
        rcases hout with ⟨b, hb⟩
        have hne : lookupDeps meta m ≠ [] := by
          intro hcon
          rw [Edge, hcon] at hb
          simp at hb
        have hmk : m ∈ keys meta := lookupDeps_ne_nil_mem_keys meta m hne
        have := List.find?_eq_none.mp hfind m hmk
        rw [(hasCycleAt_iff meta m).mpr hm] at this
        simp at this
      · intro _; trivial
    · intro msg hmsg
      simp at hmsg

/-- The metadata of the self-loop scenario: one task waiting for itself. -/
def selfLoopMeta : List (String × List String) := [("agent1", ["agent1"])]

/-- Witness for C4 at the self-loop metadata `agent1 → agent1`: the checker
raises, and the message names the node `agent1`, which lies on a cycle. -/
theorem detect_circular_dependencies_spec_witness :
    ∃ n, Relation.TransGen (Edge selfLoopMeta) n n ∧
      "Circular dependency detected: agent1" =
        "Circular dependency detected: " ++ n :=
  (detect_circular_dependencies_spec selfLoopMeta).2
    "Circular dependency detected: agent1" rfl

/-! ## Durable store and status/history logs (C5–C8) -/

/-- First-match association lookup (Python `dict` access). -/
def assocFind {α β : Type} [DecidableEq α] : List (α × β) → α → Option β
  | [], _ => none
  | (k, v) :: rest, q => if k = q then some v else assocFind rest q

/-- Overwrite-or-insert into an association list (Python `dict` update). -/
def assocSet {α β : Type} [DecidableEq α] : List (α × β) → α → β → List (α × β)
  | [], q, b => [(q, b)]
  | (k, v) :: rest, q, b =>
    if k = q then (k, b) :: rest else (k, v) :: assocSet rest q b

/-- Append one entry to the per-key file `q`, creating the file when it does
not exist yet. -/
def appendEntry {α β : Type} [DecidableEq α] :
    List (α × List β) → α → β → List (α × List β)
  | [], q, b => [(q, [b])]
  | (k, l) :: rest, q, b =>
    if k = q then (k, l ++ [b]) :: rest else (k, l) :: appendEntry rest q b

theorem assocFind_appendEntry {α β : Type} [DecidableEq α]
    (files : List (α × List β)) (q q2 : α) (b : β) :
    assocFind (appendEntry files q b) q2 =
      if q = q2 then some ((assocFind files q2).getD [] ++ [b])
      else assocFind files q2 := by
  induction files with
  | nil =>
    by_cases h : q = q2 <;> simp [appendEntry, assocFind, h]
  | cons p rest ih =>
    obtain ⟨k, l⟩ := p
    rw [appendEntry]
    by_cases hk : k = q
    · subst hk
      by_cases hq : k = q2
      · subst hq
        simp [assocFind]
      · simp [assocFind, hq, if_neg hq]
    · rw [if_neg hk, assocFind]
      by_cases hq : k = q2
      · subst hq
        have : ¬(k = k) → False := fun h => h rfl
        rw [if_pos rfl, if_neg ?_]
        · rw [assocFind, if_pos rfl]
        · intro h; exact hk (h ▸ rfl)
      · rw [if_neg hq, ih, assocFind, if_neg hq]

/-- Modelled from the spec: the backing state of the durable store.  One
append-only JSONL file per `(scope, key)`, each line either a well-formed
record carrying the written value (`some v`) or a corrupted, unparsable
line (`none`); plus the in-memory cache of current values. -/
structure MemoryManager where
  files : List ((String × String) × List (Option String))
  cache : List ((String × String) × String)
deriving DecidableEq, Repr

/-- The lines of the backing file for `(scope, key)` (empty when the file
does not exist). -/
def fileLines (mm : MemoryManager) (scope key : String) : List (Option String) :=
  (assocFind mm.files (scope, key)).getD []

/-- Modelled from the spec: `set(scope, key, value)` appends one record to
the backing file for that `(scope, key)` and updates the cache. -/
def MemoryManager.set (mm : MemoryManager) (scope key value : String) :
    MemoryManager :=
  { files := appendEntry mm.files (scope, key) (some value),
    cache := assocSet mm.cache (scope, key) value }

/-- Latest-wins replay of a backing file: the last well-formed record wins;
corrupted lines are skipped; a file with no parsable record yields nothing. -/
def lastParsed : List (Option String) → Option String
  | [] => none
  | line :: rest =>
    match lastParsed rest with
    | some v => some v
    | none => line

/-- Modelled from the spec: `get(scope, key)` returns the cached value on a
hit and otherwise replays the backing file latest-wins. -/
def MemoryManager.get (mm : MemoryManager) (scope key : String) : Option String :=
  match assocFind mm.cache (scope, key) with
  | some v => some v
  | none => lastParsed (fileLines mm scope key)

/-- Modelled from the spec: `clear_cache()` drops cached entries only; the
backing files are untouched. -/
def MemoryManager.clear_cache (mm : MemoryManager) : MemoryManager :=
  { mm with cache := [] }

theorem fileLines_set (mm : MemoryManager) (scope key value : String) :
    fileLines (mm.set scope key value) scope key =
      fileLines mm scope key ++ [some value] := by
  rw [fileLines, MemoryManager.set]
  simp only [assocFind_appendEntry, if_pos rfl]
  rw [fileLines]
  simp

theorem fileLines_set_other (mm : MemoryManager) (scope key value s2 k2 : String)
    (h : (scope, key) ≠ (s2, k2)) :
    fileLines (mm.set scope key value) s2 k2 = fileLines mm s2 k2 := by
  rw [fileLines, MemoryManager.set]
  simp only [assocFind_appendEntry, if_neg h]
  rfl

theorem lastParsed_append_some (l : List (Option String)) (v : String) :
    lastParsed (l ++ [some v]) = some v := by
  induction l with
  | nil => rfl
  | cons x rest ih =>
    rw [List.cons_append, lastParsed, ih]

theorem lastParsed_all_none (l : List (Option String))
    (h : ∀ x ∈ l, x = none) : lastParsed l = none := by
  induction l with
  | nil => rfl
  | cons x rest ih =>
    rw [lastParsed, ih (fun y hy => h y (List.mem_cons_of_mem _ hy)),
        h x (List.mem_cons_self _ _)]

theorem lastParsed_last_parsable (pre post : List (Option String)) (v : String)
    (hpost : ∀ x ∈ post, x = none) :
    lastParsed (pre ++ some v :: post) = some v := by
  induction pre with
  | nil =>
    rw [List.nil_append, lastParsed, lastParsed_all_none post hpost]
  | cons x rest ih =>
    rw [List.cons_append, lastParsed, ih]

/-- The per-workflow status record: one logical record per workflow, one
physical line per update. -/
structure WorkflowStatus where
  workflow_id : String
  story_id : String
  agent_statuses : List (String × String)
  created_at : Nat
deriving DecidableEq, Repr

/-- One immutable audit-trail entry of the History Log. -/
structure HistoryEntry where
  workflow_id : String
  agent_id : String
  status : String
  output_summary : String
deriving DecidableEq, Repr

/-- Modelled from the spec: the backing state of the Status Log and History
Log — one JSONL status file per workflow id and one append-only history
file per workflow id. -/
structure StatusService where
  statusFiles : List (String × List WorkflowStatus)
  historyFiles : List (String × List HistoryEntry)
deriving DecidableEq, Repr

/-- The status lines recorded for a workflow, oldest first. -/
def statusLines (svc : StatusService) (w : String) : List WorkflowStatus :=
  (assocFind svc.statusFiles w).getD []

/-- The history entries recorded for a workflow, oldest first. -/
def historyFor (svc : StatusService) (w : String) : List HistoryEntry :=
  (assocFind svc.historyFiles w).getD []

/-- Modelled from the spec: `write_status` appends one line to the
workflow's status file. -/
def write_status (svc : StatusService) (ws : WorkflowStatus) : StatusService :=
  { svc with statusFiles := appendEntry svc.statusFiles ws.workflow_id ws }

/-- Modelled from the spec: `read_status` replays the workflow's status
file and returns only the most recent line. -/
def read_status (svc : StatusService) (w : String) : Option WorkflowStatus :=
  (statusLines svc w).getLast?

/-- Modelled from the spec: `append_history` is pure append on the
workflow's history file, which is never otherwise mutated. -/
def append_history (svc : StatusService) (e : HistoryEntry) : StatusService :=
  { svc with historyFiles := appendEntry svc.historyFiles e.workflow_id e }

theorem statusLines_write (svc : StatusService) (ws : WorkflowStatus) (w : String) :
    statusLines (write_status svc ws) w =
      if ws.workflow_id = w then statusLines svc w ++ [ws] else statusLines svc w := by
  rw [statusLines, write_status]
  simp only [assocFind_appendEntry]
  by_cases h : ws.workflow_id = w
  · rw [if_pos h, if_pos h]
    rfl
  · rw [if_neg h, if_neg h]
    rfl

theorem read_status_write (svc : StatusService) (ws : WorkflowStatus) :
    read_status (write_status svc ws) ws.workflow_id = some ws := by
  rw [read_status, statusLines_write, if_pos rfl]
  simp

theorem historyFor_write (svc : StatusService) (ws : WorkflowStatus) (w : String) :
    historyFor (write_status svc ws) w = historyFor svc w := rfl

theorem historyFor_append (svc : StatusService) (e : HistoryEntry) (w : String) :
    historyFor (append_history svc e) w =
      if e.workflow_id = w then historyFor svc w ++ [e] else historyFor svc w := by
  rw [historyFor, append_history]
  simp only [assocFind_appendEntry]
  by_cases h : e.workflow_id = w
  · rw [if_pos h, if_pos h]
    rfl
  · rw [if_neg h, if_neg h]
    rfl

/-- Modelled from the spec: `init(workflow_id, story_id, initial_tasks)` is
idempotent — an existing workflow record is returned unchanged (including
its original `created_at`) and the status file is never re-initialized;
otherwise a fresh record with every initial task `"pending"` is written.
`now` is the clock value used for a fresh record's `created_at`. -/
def StatusService.init (svc : StatusService) (workflow_id story_id : String)
    (initial_tasks : List String) (now : Nat) : StatusService × WorkflowStatus :=
  match read_status svc workflow_id with
  | some ws => (svc, ws)
  | none =>
    let ws : WorkflowStatus :=
      ⟨workflow_id, story_id, initial_tasks.map (fun t => (t, "pending")), now⟩
    (write_status svc ws, ws)

/-- Modelled from the spec and the reset scenario of the tests:
`reset(workflow_id)` appends one new status line in which every known task
is `"pending"` and records a `workflow_reset` history entry; it never
removes or rewrites existing history entries. -/
def StatusService.reset (svc : StatusService) (w : String) : StatusService :=
  match read_status svc w with
  | none => svc
  | some ws =>
    let ws2 : WorkflowStatus :=
      { ws with agent_statuses := ws.agent_statuses.map (fun p => (p.1, "pending")) }
    append_history (write_status svc ws2)
      ⟨w, "workflow", "reset", "workflow_reset"⟩

/-- C5: append-only backing files with latest-wins replay.  Every `set`
appends exactly one line to the `(scope, key)` backing file and touches no
other file; after `set v1; set v2; clear_cache()` a `get` reconstructs `v2`
from the file alone; every `write_status` appends exactly one line to the
workflow's status file; and for a workflow whose file starts empty, three
`write_status` calls leave exactly 3 lines and `read_status` returns only
the third record. -/
theorem store_append_only_latest_wins (mm : MemoryManager)
    (scope key v v1 v2 s2 k2 : String) (svc : StatusService) (w : String)
    (ws0 ws1 ws2 ws3 : WorkflowStatus) :
    (fileLines (mm.set scope key v) scope key = fileLines mm scope key ++ [some v])
    ∧ ((scope, key) ≠ (s2, k2) →
        fileLines (mm.set scope key v) s2 k2 = fileLines mm s2 k2)
    ∧ (MemoryManager.get (((mm.set scope key v1).set scope key v2).clear_cache)
        scope key = some v2)
    ∧ (statusLines (write_status svc ws0) ws0.workflow_id
        = statusLines svc ws0.workflow_id ++ [ws0])
    ∧ (statusLines svc w = [] →
        ws1.workflow_id = w → ws2.workflow_id = w → ws3.workflow_id = w →
        statusLines (write_status (write_status (write_status svc ws1) ws2) ws3) w
            = [ws1, ws2, ws3]
        ∧ read_status (write_status (write_status (write_status svc ws1) ws2) ws3) w
            = some ws3) := by
  refine ⟨fileLines_set mm scope key v, fileLines_set_other mm scope key v s2 k2,
    ?_, ?_, ?_⟩
  · have hget : MemoryManager.get
        (((mm.set scope key v1).set scope key v2).clear_cache) scope key
        = lastParsed (fileLines ((mm.set scope key v1).set scope key v2) scope key) := rfl
    rw [hget, fileLines_set, fileLines_set]
    exact lastParsed_append_some _ v2
  · rw [statusLines_write, if_pos rfl]
  · intro hempty h1 h2 h3
    have hlines :
        statusLines (write_status (write_status (write_status svc ws1) ws2) ws3) w
          = [ws1, ws2, ws3] := by
      rw [statusLines_write, h3, if_pos rfl, statusLines_write, h2, if_pos rfl,
        statusLines_write, h1, if_pos rfl, hempty]
      rfl
    refine ⟨hlines, ?_⟩
    rw [read_status, hlines]
    rfl

/-- Witness for C5 on a fresh store and a fresh workflow: two writes to the
same key replayed after a cache clear give the second value, and three
status writes give a 3-line file whose replayed current record is the
third. -/
theorem store_append_only_latest_wins_witness :
    (MemoryManager.get
        ((((⟨[], []⟩ : MemoryManager).set "shared" "updated_key" "value1").set
            "shared" "updated_key" "value2").clear_cache) "shared" "updated_key"
      = some "value2")
    ∧ (statusLines
          (write_status (write_status (write_status (⟨[], []⟩ : StatusService)
            ⟨"history-test", "s", [("agent1", "pending")], 0⟩)
            ⟨"history-test", "s", [("agent1", "running")], 0⟩)
            ⟨"history-test", "s", [("agent1", "completed")], 0⟩) "history-test").length = 3
    ∧ read_status
          (write_status (write_status (write_status (⟨[], []⟩ : StatusService)
            ⟨"history-test", "s", [("agent1", "pending")], 0⟩)
            ⟨"history-test", "s", [("agent1", "running")], 0⟩)
            ⟨"history-test", "s", [("agent1", "completed")], 0⟩) "history-test"
        = some ⟨"history-test", "s", [("agent1", "completed")], 0⟩ := by
  have h := store_append_only_latest_wins (⟨[], []⟩ : MemoryManager)
    "shared" "updated_key" "x" "value1" "value2" "shared" "other"
    (⟨[], []⟩ : StatusService) "history-test"
    ⟨"history-test", "s", [("agent1", "pending")], 0⟩
    ⟨"history-test", "s", [("agent1", "pending")], 0⟩
    ⟨"history-test", "s", [("agent1", "running")], 0⟩
    ⟨"history-test", "s", [("agent1", "completed")], 0⟩
  have h5 := h.2.2.2.2 rfl rfl rfl rfl
  exact ⟨h.2.2.1, by rw [h5.1]; rfl, h5.2⟩

/-- C6: `init` is idempotent.  Calling it a second time (with any later
clock value) is a complete no-op: the service state is unchanged — the
status file is not re-initialized — and the very record returned by the
first call is returned again, so `created_at` is identical across the two
calls. -/
theorem init_idempotent (svc : StatusService) (w s : String)
    (tasks : List String) (t1 t2 : Nat) :
    ((svc.init w s tasks t1).1.init w s tasks t2).1 = (svc.init w s tasks t1).1
    ∧ ((svc.init w s tasks t1).1.init w s tasks t2).2 = (svc.init w s tasks t1).2
    ∧ ((svc.init w s tasks t1).1.init w s tasks t2).2.created_at
        = (svc.init w s tasks t1).2.created_at := by
  cases hr : read_status svc w with
  | some ws =>
    have h1 : svc.init w s tasks t1 = (svc, ws) := by
      rw [StatusService.init, hr]
    have h2 : svc.init w s tasks t2 = (svc, ws) := by
      rw [StatusService.init, hr]
    rw [h1, h2]
    exact ⟨rfl, rfl, rfl⟩
  | none =>
    have h1 : svc.init w s tasks t1
        = (write_status svc ⟨w, s, tasks.map (fun t => (t, "pending")), t1⟩,
           ⟨w, s, tasks.map (fun t => (t, "pending")), t1⟩) := by
      rw [StatusService.init, hr]
    have hread : read_status
        (write_status svc ⟨w, s, tasks.map (fun t => (t, "pending")), t1⟩) w
        = some ⟨w, s, tasks.map (fun t => (t, "pending")), t1⟩ :=
      read_status_write svc ⟨w, s, tasks.map (fun t => (t, "pending")), t1⟩
    have h2 : (write_status svc
          ⟨w, s, tasks.map (fun t => (t, "pending")), t1⟩).init w s tasks t2
        = (write_status svc ⟨w, s, tasks.map (fun t => (t, "pending")), t1⟩,
           ⟨w, s, tasks.map (fun t => (t, "pending")), t1⟩) := by
      rw [StatusService.init, hread]
    rw [h1, h2]
    exact ⟨rfl, rfl, rfl⟩

theorem statusLines_append_history (svc : StatusService) (e : HistoryEntry)
    (w : String) : statusLines (append_history svc e) w = statusLines svc w := rfl

/-- C7: `reset` appends one new status line in which every known task is
`"pending"` (the task set itself is preserved), and it only ever appends to
the History Log: every history entry any history query returned before the
reset is still returned by the same query afterwards. -/
theorem reset_pending_preserves_history (svc : StatusService) (w : String)
    (ws : WorkflowStatus) (hr : read_status svc w = some ws)
    (hw : ws.workflow_id = w) :
    (∃ ws2, read_status (svc.reset w) w = some ws2
      ∧ ws2.agent_statuses.map Prod.fst = ws.agent_statuses.map Prod.fst
      ∧ (∀ p ∈ ws2.agent_statuses, p.2 = "pending")
      ∧ statusLines (svc.reset w) w = statusLines svc w ++ [ws2])
    ∧ (∀ w2 : String, ∀ e ∈ historyFor svc w2, e ∈ historyFor (svc.reset w) w2) := by
  have hreset : svc.reset w
      = append_history (write_status svc
          { ws with agent_statuses := ws.agent_statuses.map (fun p => (p.1, "pending")) })
          ⟨w, "workflow", "reset", "workflow_reset"⟩ := by
    rw [StatusService.reset, hr]
  constructor
  · refine ⟨{ ws with agent_statuses := ws.agent_statuses.map (fun p => (p.1, "pending")) },
      ?_, ?_, ?_, ?_⟩
    · rw [hreset]
      have : read_status (append_history (write_status svc
          { ws with agent_statuses := ws.agent_statuses.map (fun p => (p.1, "pending")) })
          ⟨w, "workflow", "reset", "workflow_reset"⟩) w
          = read_status (write_status svc
          { ws with agent_statuses := ws.agent_statuses.map (fun p => (p.1, "pending")) }) w := rfl
      rw [this, ← hw]
      exact read_status_write svc _
    · simp
    · intro p hp
      rcases List.mem_map.mp hp with ⟨q, _, hq⟩
      rw [← hq]
    · rw [hreset, statusLines_append_history, statusLines_write]
      simp only
      rw [hw, if_pos rfl]
  · intro w2 e he
    rw [hreset, historyFor_append, historyFor_write]
    by_cases h2 : (⟨w, "workflow", "reset", "workflow_reset"⟩ : HistoryEntry).workflow_id = w2
    · rw [if_pos h2]
      exact List.mem_append_left _ he
    · rw [if_neg h2]
      exact he

/-- The pre-reset service of the reset scenario: workflow `wf-reset` has
task `x` completed and one earlier history entry. -/
def resetScenario : StatusService :=
  ⟨[("wf-reset", [⟨"wf-reset", "6.3", [("x", "completed")], 0⟩])],
   [("wf-reset", [⟨"wf-reset", "x", "completed", "done"⟩])]⟩

/-- Witness for C7 on the reset scenario: after `reset`, the replayed
current status marks every task `"pending"`, and the pre-reset history
entry is still returned. -/
theorem reset_pending_preserves_history_witness :
    (∃ ws2, read_status (resetScenario.reset "wf-reset") "wf-reset" = some ws2
      ∧ ws2.agent_statuses.map Prod.fst
          = ([("x", "completed")] : List (String × String)).map Prod.fst
      ∧ (∀ p ∈ ws2.agent_statuses, p.2 = "pending")
      ∧ statusLines (resetScenario.reset "wf-reset") "wf-reset"
          = statusLines resetScenario "wf-reset" ++ [ws2])
    ∧ (⟨"wf-reset", "x", "completed", "done"⟩ : HistoryEntry)
        ∈ historyFor (resetScenario.reset "wf-reset") "wf-reset" := by
  have h := reset_pending_preserves_history resetScenario "wf-reset"
    ⟨"wf-reset", "6.3", [("x", "completed")], 0⟩ rfl rfl
  exact ⟨h.1, h.2 "wf-reset" _ (by decide)⟩

/-- C8: corruption-tolerant replay.  On a cache miss, `get` replays the
backing file: when the file holds a well-formed record followed only by
corrupted lines, the value of that last well-formed record is returned —
earlier corrupted lines block nothing; when no line of the file is
parsable, the key is treated as absent and `get` returns `none` instead of
failing. -/
theorem get_tolerates_corruption (mm : MemoryManager) (scope key : String)
    (hmiss : assocFind mm.cache (scope, key) = none) :
    (∀ v pre post, fileLines mm scope key = pre ++ some v :: post →
        (∀ x ∈ post, x = none) → mm.get scope key = some v)
    ∧ ((∀ x ∈ fileLines mm scope key, x = none) → mm.get scope key = none) := by
  have hget : mm.get scope key = lastParsed (fileLines mm scope key) := by
    rw [MemoryManager.get, hmiss]
  constructor
  · intro v pre post hfile hpost
    rw [hget, hfile]
    exact lastParsed_last_parsable pre post v hpost
  · intro hall
    rw [hget]
    exact lastParsed_all_none _ hall

/-- The corrupted backing file of the tests: one unparsable line followed
by one valid record. -/
def corruptedStore : MemoryManager :=
  ⟨[(("shared", "corrupted"), [none, some "data"])], []⟩

/-- A store whose only line for the key is unparsable. -/
def allCorruptStore : MemoryManager :=
  ⟨[(("shared", "bad"), [none])], []⟩

/-- Witness for C8: a file with a corrupted first line and a valid second
record replays to the valid value, and a file with only a corrupted line
replays to `none`. -/
theorem get_tolerates_corruption_witness :
    corruptedStore.get "shared" "corrupted" = some "data"
    ∧ allCorruptStore.get "shared" "bad" = none := by
  refine ⟨(get_tolerates_corruption corruptedStore "shared" "corrupted" rfl).1
      "data" [none] [] rfl ?_,
    (get_tolerates_corruption allCorruptStore "shared" "bad" rfl).2 ?_⟩
  · intro x hx
    simp at hx
  · intro x hx
    have : x ∈ [(none : Option String)] := hx
    simpa using this

/-! ## Identifier validation (C9) -/

/-- The strict identifier allow-list of the spec: alphanumerics, `-`, `_`
and `.`. -/
def isValidIdChar (c : Char) : Bool :=
  c.isAlphanum || c == '-' || c == '_' || c == '.'

/-- Modelled from the spec: validation of a workflow / story / document /
agent identifier against the allow-list, applied before the identifier is
used in any filesystem path. -/
def validate_identifier (s : String) : Bool :=
  s.data.all isValidIdChar

/-- Modelled from the spec: the status write entry point validates every
identifier of the record (workflow id, story id, agent ids) before
touching the backing file.  An invalid identifier is rejected with a
validation error and no successor state is produced, so no backing file is
created or touched. -/
def write_status_checked (svc : StatusService) (ws : WorkflowStatus) :
    Except String StatusService :=
  if validate_identifier ws.workflow_id
      && validate_identifier ws.story_id
      && ws.agent_statuses.all (fun p => validate_identifier p.1) then
    .ok (write_status svc ws)
  else
    .error "ValidationError: invalid identifier"

/-- Modelled from the spec: `check_document_dependencies` of the dependency
checker — for each id in `required`, order preserved, the id is missing
when the corresponding document artifact does not exist (`docsExist` models
the filesystem).  Document ids are not validated: the check always
completes normally with a missing-list; its return type has no error
channel. -/
def check_document_dependencies (docsExist : String → Bool)
    (required : List String) : List String :=
  required.filter (fun d => !docsExist d)

/-- Counterexample for C9: document identifiers are not validated.  The
path-traversal document id `"../invalid"` contains `'/'`, a character
outside the allow-list, yet the document dependency check — run, as in the
repository's test, with no artifacts on disk — completes normally and
merely reports all three invalid ids as missing documents; no validation
error is raised (the operation cannot raise one), refuting the claim's
universal statement for document identifiers. -/
theorem document_ids_not_validated :
    ('/' ∈ String.data "../invalid" ∧ isValidIdChar '/' = false)
    ∧ check_document_dependencies (fun _ => false)
        ["../invalid", "doc with spaces", "doc/with/slashes"]
      = ["../invalid", "doc with spaces", "doc/with/slashes"] :=
  ⟨⟨by decide, by decide⟩, by decide⟩

/-- C9 (amended): workflow, story and agent identifiers are validated
against the strict allow-list (alphanumerics, `-`, `_`, `.`) before any
backing file is used: an identifier of any of these kinds containing a
character outside the allow-list makes the operation fail with a
validation error — and since a rejected call produces no successor state,
no backing file is created or touched; a successful call guarantees every
such identifier passed the allow-list.  The path-traversal identifiers of
the tests (`"../test"`, `"test/sub"`, `"test@123"`) are all rejected.
Document identifiers, by contrast, are not validated: the dependency check
completes normally on every document id, reporting a nonexistent document
(in particular any path-traversal id, which never names an artifact) as a
missing document instead of raising, and it reports nothing outside the
requested list. -/
theorem identifier_validation_amended (svc : StatusService) (ws : WorkflowStatus)
    (docsExist : String → Bool) (required : List String) :
    (∀ c ∈ ws.workflow_id.data, isValidIdChar c = false →
        write_status_checked svc ws = .error "ValidationError: invalid identifier")
    ∧ (∀ c ∈ ws.story_id.data, isValidIdChar c = false →
        write_status_checked svc ws = .error "ValidationError: invalid identifier")
    ∧ (∀ p ∈ ws.agent_statuses, ∀ c ∈ (Prod.fst p).data, isValidIdChar c = false →
        write_status_checked svc ws = .error "ValidationError: invalid identifier")
    ∧ (∀ svc2, write_status_checked svc ws = .ok svc2 →
        validate_identifier ws.workflow_id = true
        ∧ validate_identifier ws.story_id = true
        ∧ (∀ p ∈ ws.agent_statuses, validate_identifier p.1 = true)
        ∧ svc2 = write_status svc ws)
    ∧ (validate_identifier "../test" = false
        ∧ validate_identifier "test/sub" = false
        ∧ validate_identifier "test@123" = false)
    ∧ (∀ d ∈ required, docsExist d = false →
        d ∈ check_document_dependencies docsExist required)
    ∧ (∀ d ∈ check_document_dependencies docsExist required, d ∈ required) := by
  refine ⟨?_, ?_, ?_, ?_, ⟨by decide, by decide, by decide⟩, ?_, ?_⟩
  · intro c hc hbad
    have hv : validate_identifier ws.workflow_id = false := by
      rw [validate_identifier]
      by_contra hcon
      have := (List.all_eq_true.mp (Bool.of_not_eq_false hcon)) c hc
      rw [hbad] at this
      exact Bool.false_ne_true this
    rw [write_status_checked, hv]
    rfl
  · intro c hc hbad
    have hv : validate_identifier ws.story_id = false := by
      rw [validate_identifier]
      by_contra hcon
      have := (List.all_eq_true.mp (Bool.of_not_eq_false hcon)) c hc
      rw [hbad] at this
      exact Bool.false_ne_true this
    rw [write_status_checked, hv]
    simp
  · intro p hp c hc hbad
    have hpv : validate_identifier p.1 = false := by
      rw [validate_identifier]
      by_contra hcon
      have := (List.all_eq_true.mp (Bool.of_not_eq_false hcon)) c hc
      rw [hbad] at this
      exact Bool.false_ne_true this
    have hall : ws.agent_statuses.all (fun q => validate_identifier q.1) = false := by
      by_contra hcon
      have := (List.all_eq_true.mp (Bool.of_not_eq_false hcon)) p hp
      rw [hpv] at this
      exact Bool.false_ne_true this
    rw [write_status_checked, hall]
    simp
  · intro svc2 hok
    rw [write_status_checked] at hok
    by_cases hcond : (validate_identifier ws.workflow_id
        && validate_identifier ws.story_id
        && ws.agent_statuses.all (fun p => validate_identifier p.1)) = true
    · rw [if_pos hcond] at hok
      simp only [Bool.and_eq_true] at hcond
      refine ⟨hcond.1.1, hcond.1.2, ?_, ?_⟩
      · exact fun p hp => (List.all_eq_true.mp hcond.2) p hp
      · cases hok
        rfl
    · rw [if_neg hcond] at hok
      cases hok
  · intro d hd hnone
    rw [check_document_dependencies]
    refine List.mem_filter.mpr ⟨hd, ?_⟩
    rw [hnone]
    rfl
  · intro d hd
    rw [check_document_dependencies] at hd
    exact (List.mem_filter.mp hd).1

/-- Witness for C9 (amended): a status record whose workflow id is the
path-traversal string `"../test"` is rejected (the `'/'` character fails
the allow-list), so no backing file is touched; and the invalid document
id `"../invalid"` is reported as a missing document by the normally
completing dependency check. -/
theorem identifier_validation_amended_witness :
    write_status_checked (⟨[], []⟩ : StatusService)
        ⟨"../test", "test-story", [("agent1", "pending")], 0⟩
      = .error "ValidationError: invalid identifier"
    ∧ "../invalid" ∈ check_document_dependencies (fun _ => false) ["../invalid"] := by
  have h := identifier_validation_amended (⟨[], []⟩ : StatusService)
    ⟨"../test", "test-story", [("agent1", "pending")], 0⟩
    (fun _ => false) ["../invalid"]
  exact ⟨h.1 '/' (by decide) (by decide),
         h.2.2.2.2.2.1 "../invalid" (by decide) rfl⟩

/-! ## Configuration merging (C10), embedded from `scripts/config_loader.py` -/

/-- The slice of one agent's parser metadata that `merge_configurations`
reads and writes: its `parallel` flag, and whether the agent object carries
a `_front_matter_parallel` attribute (the `hasattr` guard of the source). -/
structure AgentMeta where
  parallel : Bool
  front_matter_parallel_defined : Bool
deriving DecidableEq, Repr

/-- `agent.parallel = True` of the source, guarded by
`if not hasattr(agent, '_front_matter_parallel')`. -/
def markParallel (a : AgentMeta) : AgentMeta :=
  if a.front_matter_parallel_defined then a else { a with parallel := true }

/-- The inner loop body of `merge_configurations`: for one listed agent
name, `if agent_name in agent_metadata:` update that entry's object; every
other entry is untouched. -/
def markAgent : List (String × AgentMeta) → String → List (String × AgentMeta)
  | [], _ => []
  | (k, a) :: rest, n =>
    (if k = n then (k, markParallel a) else (k, a)) :: markAgent rest n

/-- One workflow step of `merge_configurations`: when the step lists more
than one agent (`if len(agent_names) > 1`), mark every listed agent. -/
def applyStep (md : List (String × AgentMeta)) (step : List String) :
    List (String × AgentMeta) :=
  if 1 < step.length then step.foldl markAgent md else md

/-- `merge_configurations` of `scripts/config_loader.py`, restricted to its
effect on the agents' metadata (the returned dictionary reuses the mutated
`agent_metadata`): for every flow and every step of that flow, apply the
parallel-marking pass.  A flow is `(name, steps)` and a step is its
`agents` list. -/
def merge_configurations (agent_metadata : List (String × AgentMeta))
    (flows : List (String × List (List String))) : List (String × AgentMeta) :=
  flows.foldl (fun md flow => flow.2.foldl (fun md2 step => applyStep md2 step) md)
    agent_metadata

/-- Whether some step of some flow lists more than one agent and contains
`name`. -/
def AppearsInBigStep (flows : List (String × List (List String)))
    (name : String) : Prop :=
  ∃ f ∈ flows, ∃ st ∈ f.2, 1 < st.length ∧ name ∈ st

instance (flows : List (String × List (List String))) (name : String) :
    Decidable (AppearsInBigStep flows name) :=
  inferInstanceAs (Decidable (∃ f ∈ flows, ∃ st ∈ f.2, 1 < st.length ∧ name ∈ st))

theorem markParallel_idem (a : AgentMeta) :
    markParallel (markParallel a) = markParallel a := by
  by_cases h : a.front_matter_parallel_defined = true <;>
    simp [markParallel, h]

theorem option_map_markParallel_idem (o : Option AgentMeta) :
    (o.map markParallel).map markParallel = o.map markParallel := by
  cases o with
  | none => rfl
  | some a => simp [markParallel_idem]

theorem assocFind_markAgent (md : List (String × AgentMeta)) (n name : String) :
    assocFind (markAgent md n) name =
      if n = name then (assocFind md name).map markParallel
      else assocFind md name := by
  induction md with
  | nil => by_cases h : n = name <;> simp [markAgent, assocFind, h]
  | cons p rest ih =>
    obtain ⟨k, a⟩ := p
    by_cases hkn : k = n
    · by_cases hkname : k = name
      · have hn : n = name := by rw [← hkn, hkname]
        rw [markAgent, if_pos hkn, assocFind, if_pos hkname,
          if_pos hn, assocFind, if_pos hkname]
        rfl
      · have hn : ¬(n = name) := fun h => hkname (by rw [hkn, h])
        rw [markAgent, if_pos hkn, assocFind, if_neg hkname,
          if_neg hn, assocFind, if_neg hkname]
        have := ih
        rw [if_neg hn] at this
        exact this
    · by_cases hkname : k = name
      · have hn : ¬(n = name) := fun h => hkn (by rw [hkname, h])
        rw [markAgent, if_neg hkn, assocFind, if_pos hkname,
          if_neg hn, assocFind, if_pos hkname]
      · rw [markAgent, if_neg hkn, assocFind, if_neg hkname, ih, assocFind,
          if_neg hkname]

theorem assocFind_foldl_markAgent (step : List String)
    (md : List (String × AgentMeta)) (name : String) :
    assocFind (step.foldl markAgent md) name =
      if name ∈ step then (assocFind md name).map markParallel
      else assocFind md name := by
  induction step generalizing md with
  | nil => simp
  | cons s rest ih =>
    rw [List.foldl_cons, ih]
    rw [assocFind_markAgent]
    by_cases hs : s = name
    · by_cases hr : name ∈ rest
      · rw [if_pos hr, if_pos hs, option_map_markParallel_idem,
          if_pos (List.mem_cons.mpr (Or.inl hs.symm))]
      · rw [if_neg hr, if_pos hs]
        rw [if_pos (List.mem_cons.mpr (Or.inl hs.symm))]
    · by_cases hr : name ∈ rest
      · rw [if_pos hr, if_neg hs, if_pos (List.mem_cons_of_mem s hr)]
      · rw [if_neg hr, if_neg hs, if_neg ?_]
        intro hcon
        rcases List.mem_cons.mp hcon with h1 | h1
        · exact hs h1.symm
        · exact hr h1

theorem assocFind_applyStep (md : List (String × AgentMeta))
    (step : List String) (name : String) :
    assocFind (applyStep md step) name =
      if 1 < step.length ∧ name ∈ step then (assocFind md name).map markParallel
      else assocFind md name := by
  rw [applyStep]
  by_cases hlen : 1 < step.length
  · rw [if_pos hlen, assocFind_foldl_markAgent]
    by_cases hmem : name ∈ step
    · rw [if_pos hmem, if_pos ⟨hlen, hmem⟩]
    · rw [if_neg hmem, if_neg (fun h => hmem h.2)]
  · rw [if_neg hlen, if_neg (fun h => hlen h.1)]

theorem assocFind_foldl_applyStep (steps : List (List String))
    (md : List (String × AgentMeta)) (name : String) :
    assocFind (steps.foldl (fun md2 step => applyStep md2 step) md) name =
      if ∃ st ∈ steps, 1 < st.length ∧ name ∈ st then
        (assocFind md name).map markParallel
      else assocFind md name := by
  induction steps generalizing md with
  | nil => simp
  | cons st rest ih =>
    rw [List.foldl_cons, ih, assocFind_applyStep]
    by_cases hst : 1 < st.length ∧ name ∈ st
    · by_cases hr : ∃ s2 ∈ rest, 1 < s2.length ∧ name ∈ s2
      · rw [if_pos hr, if_pos hst, option_map_markParallel_idem,
          if_pos ⟨st, List.mem_cons_self st rest, hst⟩]
      · rw [if_neg hr, if_pos hst, if_pos ⟨st, List.mem_cons_self st rest, hst⟩]
    · by_cases hr : ∃ s2 ∈ rest, 1 < s2.length ∧ name ∈ s2
      · rcases hr with ⟨s2, hs2, hs2p⟩
        rw [if_pos ⟨s2, hs2, hs2p⟩, if_neg hst,
          if_pos ⟨s2, List.mem_cons_of_mem st hs2, hs2p⟩]
      · rw [if_neg hr, if_neg hst, if_neg ?_]
        rintro ⟨s2, hs2, hs2p⟩
        rcases List.mem_cons.mp hs2 with h1 | h1
        · exact hst (h1 ▸ hs2p)
        · exact hr ⟨s2, h1, hs2p⟩

theorem assocFind_merge (md : List (String × AgentMeta))
    (flows : List (String × List (List String))) (name : String) :
    assocFind (merge_configurations md flows) name =
      if AppearsInBigStep flows name then (assocFind md name).map markParallel
      else assocFind md name := by
  induction flows generalizing md with
  | nil =>
    rw [merge_configurations, List.foldl_nil, if_neg ?_]
    rintro ⟨f, hf, _⟩
    simp at hf
  | cons flow rest ih =>
    rw [merge_configurations, List.foldl_cons]
    rw [← merge_configurations, ih, assocFind_foldl_applyStep]
    by_cases hflow : ∃ st ∈ flow.2, 1 < st.length ∧ name ∈ st
    · by_cases hr : AppearsInBigStep rest name
      · rw [if_pos hr, if_pos hflow, option_map_markParallel_idem,
          if_pos ⟨flow, List.mem_cons_self flow rest, hflow⟩]
      · rw [if_neg hr, if_pos hflow, if_pos ⟨flow, List.mem_cons_self flow rest, hflow⟩]
    · by_cases hr : AppearsInBigStep rest name
      · rcases hr with ⟨f, hf, hfp⟩
        rw [if_pos ⟨f, hf, hfp⟩, if_neg hflow,
          if_pos ⟨f, List.mem_cons_of_mem flow hf, hfp⟩]
      · rw [if_neg hr, if_neg hflow, if_neg ?_]
        rintro ⟨f, hf, hfp⟩
        rcases List.mem_cons.mp hf with h1 | h1
        · exact hflow (h1 ▸ hfp)
        · exact hr ⟨f, h1, hfp⟩

/-- C10: the workflow-driven parallel marking of `merge_configurations`.
For a registered agent `name` with metadata `a`: if it appears in some
workflow step listing more than one agent and does not carry a front-matter
`_front_matter_parallel` attribute, its `parallel` flag is set to `True`;
if it only ever appears in single-agent steps (or in no step at all), its
metadata — in particular its `parallel` flag — is left unchanged; and if it
carries the front-matter attribute, its metadata is left unchanged even
inside a multi-agent step. -/
theorem merge_configurations_parallel_marking
    (md : List (String × AgentMeta)) (flows : List (String × List (List String)))
    (name : String) (a : AgentMeta) (ha : assocFind md name = some a) :
    (a.front_matter_parallel_defined = false → AppearsInBigStep flows name →
        assocFind (merge_configurations md flows) name
          = some { a with parallel := true })
    ∧ (¬AppearsInBigStep flows name →
        assocFind (merge_configurations md flows) name = some a)
    ∧ (a.front_matter_parallel_defined = true →
        assocFind (merge_configurations md flows) name = some a) := by
  rw [assocFind_merge]
  refine ⟨?_, ?_, ?_⟩
  · intro hfm happ
    rw [if_pos happ, ha]
    simp [markParallel, hfm]
  · intro happ
    rw [if_neg happ, ha]
  · intro hfm
    by_cases happ : AppearsInBigStep flows name
    · rw [if_pos happ, ha]
      simp [markParallel, hfm]
    · rw [if_neg happ, ha]

/-- The registered agents of the marking scenario: none is `parallel` yet,
`a2` carries a front-matter `_front_matter_parallel` attribute. -/
def mergeScenarioAgents : List (String × AgentMeta) :=
  [("a1", ⟨false, false⟩), ("a2", ⟨false, true⟩), ("a3", ⟨false, false⟩)]

/-- One flow whose first step lists two agents and whose second step lists
one. -/
def mergeScenarioFlows : List (String × List (List String)) :=
  [("default", [["a1", "a2"], ["a3"]])]

/-- Witness for C10: in the scenario, `a1` (multi-agent step, no front
matter) becomes `parallel`; `a2` (multi-agent step but front matter
defined) is unchanged; `a3` (only a single-agent step) is unchanged. -/
theorem merge_configurations_parallel_marking_witness :
    assocFind (merge_configurations mergeScenarioAgents mergeScenarioFlows) "a1"
        = some ⟨true, false⟩
    ∧ assocFind (merge_configurations mergeScenarioAgents mergeScenarioFlows) "a2"
        = some ⟨false, true⟩
    ∧ assocFind (merge_configurations mergeScenarioAgents mergeScenarioFlows) "a3"
        = some ⟨false, false⟩ :=
  ⟨(merge_configurations_parallel_marking mergeScenarioAgents mergeScenarioFlows
      "a1" ⟨false, false⟩ (by decide)).1 rfl (by decide),
   (merge_configurations_parallel_marking mergeScenarioAgents mergeScenarioFlows
      "a2" ⟨false, true⟩ (by decide)).2.2 rfl,
   (merge_configurations_parallel_marking mergeScenarioAgents mergeScenarioFlows
      "a3" ⟨false, false⟩ (by decide)).2.1 (by decide)⟩
